import Mathlib

/-!
# Verification of the segmented Sieve of Eratosthenes (serial and OpenMP variants)

Shallow embedding of `code/sieve_serial.cpp` (functions `simple_sieve`,
`sieve_serial`) and `code/sieve_openmp.cpp` (functions `simple_sieve`,
`sieve_openmp`).

Embedding conventions:
* `long long` / `int` values are modelled as `Nat`; every quantity handled by
  the program in the claims' range is non-negative, and the overflow claim is
  settled separately by bounding each intermediate against `2 ^ 63`.
* `std::vector<bool>` buffers are modelled as functions `Nat → Bool`; the
  program only reads indices inside the allocated range, which the lemmas
  track explicitly.
* `for` loops become structurally recursive functions driven by a fuel
  argument that is chosen at the call site to dominate the real iteration
  count; each recursive step re-checks the loop's actual guard, so for
  sufficient fuel the recursion is exactly the loop.  Fuel keeps every
  definition kernel-computable.
* `(int)floor(sqrt((long double)N))` is modelled as the exact integer square
  root (`intSqrt`, proven equal to `Nat.sqrt`); for the `N` range of the
  claims the C++ `long double` computation is exact.
* The OpenMP parallel-for with `reduction(+:total_count)` is modelled as the
  sum of the per-segment counts; scheduling nondeterminism is modelled by
  quantifying over permutations of the segment list
  (`sieve_openmp_sched`).  The thread count `T` only sets the pool size and
  cannot influence the per-segment pure computations, so it is a phantom
  parameter of the model.
-/

namespace SieveVerify

/-! ## Integer square root (kernel-computable) -/

/-- Newton iteration for the integer square root, identical in shape to
`Nat.sqrt.iter` but driven by fuel so that the kernel can evaluate it
(the guess strictly decreases, so `fuel ≥ guess` is always enough). -/
def sqrtIter (n : Nat) : Nat → Nat → Nat
  | 0, guess => guess
  | fuel + 1, guess =>
      let next := (guess + n / guess) / 2
      if next < guess then sqrtIter n fuel next else guess

/-- `⌊√n⌋`, kernel-computable.  Models the C++
`(int)floor(sqrt((long double)N))`, which is exact for the relevant range;
proven equal to `Nat.sqrt` below. -/
def intSqrt (n : Nat) : Nat :=
  if n ≤ 1 then n else sqrtIter n (n / 2) (n / 2)

theorem sqrtIter_eq (n : Nat) :
    ∀ guess fuel, guess ≤ fuel → sqrtIter n fuel guess = Nat.sqrt.iter n guess := by
  intro guess
  induction guess using Nat.strong_induction_on with
  | _ guess ih =>
      intro fuel hf
      cases fuel with
      | zero =>
          have hg : guess = 0 := by omega
          subst hg
          rw [Nat.sqrt.iter]
          simp [sqrtIter]
      | succ fuel =>
          simp only [sqrtIter]
          by_cases h : (guess + n / guess) / 2 < guess
          · rw [if_pos h, ih _ h fuel (by omega)]
            conv_rhs => rw [Nat.sqrt.iter]
            simp only [dif_pos h]
          · rw [if_neg h]
            conv_rhs => rw [Nat.sqrt.iter]
            simp only [dif_neg h]

theorem intSqrt_eq_sqrt (n : Nat) : intSqrt n = Nat.sqrt n := by
  unfold intSqrt Nat.sqrt
  by_cases h : n ≤ 1
  · rw [if_pos h, if_pos h]
  · rw [if_neg h, if_neg h, sqrtIter_eq n (n / 2) (n / 2) (le_refl _)]

/-! ## `simple_sieve` (both files: the base-prime generator)

```cpp
vector<int> simple_sieve(int limit) {
    vector<bool> is_prime(limit + 1, true);
    if (limit >= 0) is_prime[0] = false;
    if (limit >= 1) is_prime[1] = false;
    for (int i = 2; (long long)i * i <= limit; i++) {
        if (is_prime[i]) {
            for (long long j = 1LL * i * i; j <= limit; j += i) {
                is_prime[(int)j] = false;
            }
        }
    }
    vector<int> primes;
    for (int i = 2; i <= limit; i++)
        if (is_prime[i]) primes.push_back(i);
    return primes;
}
```
-/

/-- Inner loop: `for (j = i*i; j <= limit; j += i) is_prime[j] = false;`
starting from the current `j`. -/
def markMultiples (limit i : Nat) : Nat → Nat → (Nat → Bool) → (Nat → Bool)
  | 0, _, arr => arr
  | fuel + 1, j, arr =>
      if j ≤ limit then
        markMultiples limit i fuel (j + i) (fun n => if n = j then false else arr n)
      else arr

/-- Outer loop: `for (i = 2; i*i <= limit; i++)` with the conditional marking. -/
def sieveLoop (limit : Nat) : Nat → Nat → (Nat → Bool) → (Nat → Bool)
  | 0, _, arr => arr
  | fuel + 1, i, arr =>
      if i * i ≤ limit then
        sieveLoop limit fuel (i + 1)
          (if arr i = true then markMultiples limit i (limit + 1) (i * i) arr else arr)
      else arr

/-- The base-prime generator (identical in both source files). -/
def simple_sieve (limit : Nat) : List Nat :=
  let arr := sieveLoop limit (limit + 1) 2 (fun n => decide (2 ≤ n))
  (List.range (limit + 1)).filter (fun i => decide (2 ≤ i) && arr i)

/-! ## Per-segment marking and counting

Serial file, inside the low-loop (lines 139–208):

```cpp
for (int p : base_primes) {
    if (p == 2) continue;
    long long p64 = (long long)p;
    long long p2 = p64 * p64;
    if (p2 > high) break;
    long long start = max(p2, ((low + p64 - 1) / p64) * p64);
    if (start % 2 == 0) start += p64;
    for (long long x = start; x <= high; x += 2 * p64) {
        long long idx = (x - low) / 2;
        if (idx >= 0 && idx < odd_count) segment[idx] = false;
    }
}
for (i = 0; i < odd_count; i++)
    if (segment[i]) { num = low + 2*i; if (num <= N) prime_count++; }
```

The OpenMP file (lines 155–216) is identical except that the buffer write
`segment[idx] = false` carries no `idx` range check.
-/

/-- `((low + p - 1) / p) * p`: the least multiple of `p` that is `≥ low`. -/
def firstMultiple (p low : Nat) : Nat := ((low + p - 1) / p) * p

/-- `start = max(p*p, firstMultiple); if (start % 2 == 0) start += p;` -/
def segmentStart (p low : Nat) : Nat :=
  let s := max (p * p) (firstMultiple p low)
  if s % 2 = 0 then s + p else s

/-- Serial marking loop over `x = start, start+step, …` while `x ≤ high`,
with the source's bounds guard on the write (`idx ≥ 0` is automatic in `Nat`). -/
def markIterSerial (low high oc step : Nat) : Nat → Nat → (Nat → Bool) → (Nat → Bool)
  | 0, _, buf => buf
  | fuel + 1, x, buf =>
      if x ≤ high then
        markIterSerial low high oc step fuel (x + step)
          (if (x - low) / 2 < oc then
            (fun n => if n = (x - low) / 2 then false else buf n)
          else buf)
      else buf

/-- OpenMP marking loop: identical but the write is unguarded. -/
def markIterOmp (low high step : Nat) : Nat → Nat → (Nat → Bool) → (Nat → Bool)
  | 0, _, buf => buf
  | fuel + 1, x, buf =>
      if x ≤ high then
        markIterOmp low high step fuel (x + step)
          (fun n => if n = (x - low) / 2 then false else buf n)
      else buf

/-- Serial base-prime loop over the segment, with the `p*p > high` break. -/
def markSegmentSerial (low high oc : Nat) : List Nat → (Nat → Bool) → (Nat → Bool)
  | [], buf => buf
  | p :: ps, buf =>
      if p = 2 then markSegmentSerial low high oc ps buf
      else if high < p * p then buf
      else
        markSegmentSerial low high oc ps
          (markIterSerial low high oc (2 * p) (high + 1) (segmentStart p low) buf)

/-- OpenMP base-prime loop (same break, unguarded write). -/
def markSegmentOmp (low high : Nat) : List Nat → (Nat → Bool) → (Nat → Bool)
  | [], buf => buf
  | p :: ps, buf =>
      if p = 2 then markSegmentOmp low high ps buf
      else if high < p * p then buf
      else
        markSegmentOmp low high ps
          (markIterOmp low high (2 * p) (high + 1) (segmentStart p low) buf)

/-- `markSegmentSerial` without the early `break`: every base prime is
processed.  Follows the spec's words for the early-termination claim
("the buffer obtained by processing every base prime"); a prime with
`p*p > high` still computes its `start` and runs the (empty) marking loop. -/
def markSegmentSerialFull (low high oc : Nat) : List Nat → (Nat → Bool) → (Nat → Bool)
  | [], buf => buf
  | p :: ps, buf =>
      if p = 2 then markSegmentSerialFull low high oc ps buf
      else
        markSegmentSerialFull low high oc ps
          (markIterSerial low high oc (2 * p) (high + 1) (segmentStart p low) buf)

/-- Survivor counting loop: `if (segment[i]) { num = low + 2*i; if (num <= N) count++; }`
(identical in both files). -/
def countSurvivors (N low oc : Nat) (buf : Nat → Bool) : Nat :=
  (List.range oc).countP (fun i => buf i && decide (low + 2 * i ≤ N))

/-! ## The serial segmented sieve (`sieve_serial`, lines 83–222)

Note a source subtlety modelled faithfully here: the loop variable `low` is
mutated by the odd-adjustment `if (low % 2 == 0) low++;` inside the body, and
the loop increment `low += SEG_SIZE` is applied to the *adjusted* value, while
`high` is computed from the unadjusted value.
-/

/-- `static const long long SEG_SIZE = 1 << 20;` (same constant in both files). -/
def SEG_SIZE : Nat := 2 ^ 20

/-- The segment loop `for (low = 3; low <= N; low += W)` of `sieve_serial`,
with the segment width as an explicit parameter `W`. -/
def segLoopSerial (W N : Nat) (P : List Nat) : Nat → Nat → Nat
  | 0, _ => 0
  | fuel + 1, low =>
      if low ≤ N then
        let high := min (low + W - 1) N
        let low' := if low % 2 = 0 then low + 1 else low
        let cnt :=
          if high < low' then 0
          else
            let oc := (high - low') / 2 + 1
            countSurvivors N low' oc (markSegmentSerial low' high oc P (fun _ => true))
        cnt + segLoopSerial W N P fuel (low' + W)
      else 0

/-- `sieve_serial` with the internal `SEG_SIZE` constant treated as the
parameter `W` (the source's fixed value is recovered by `sieve_serial`). -/
def sieve_serial_W (W N : Nat) : Nat :=
  if N < 2 then 0
  else 1 + segLoopSerial W N (simple_sieve (intSqrt N)) (N + 1) 3

/-- `long long sieve_serial(long long N)`. -/
def sieve_serial (N : Nat) : Nat := sieve_serial_W SEG_SIZE N

/-! ## The OpenMP segmented sieve (`sieve_openmp`, lines 77–236) -/

/-- `low = first_value + seg_id * SEG_SIZE` (parametrised width). -/
def rawLow (W s : Nat) : Nat := 3 + s * W

/-- `high = min(low + SEG_SIZE - 1, N)`. -/
def rawHigh (W N s : Nat) : Nat := min (rawLow W s + W - 1) N

/-- `num_segments = (total_numbers + SEG_SIZE - 1) / SEG_SIZE` with
`total_numbers = N - first_value + 1`; only evaluated for `N ≥ 3`. -/
def numSegments (W N : Nat) : Nat := (N - 3 + 1 + (W - 1)) / W

/-- Body of one iteration of the OpenMP parallel-for: the local count
contributed by segment `seg_id = s` (pure function of the shared inputs). -/
def segCountOmp (W N : Nat) (P : List Nat) (s : Nat) : Nat :=
  let low0 := rawLow W s
  let high := rawHigh W N s
  let low := if low0 % 2 = 0 then low0 + 1 else low0
  if high < low then 0
  else
    let oc := (high - low) / 2 + 1
    countSurvivors N low oc (markSegmentOmp low high P (fun _ => true))

/-- `sieve_openmp` with `SEG_SIZE` as the parameter `W`.  The OpenMP
`reduction(+:total_count)` over the parallel loop is its sum of per-segment
counts; `T` (the `omp_set_num_threads` argument) cannot affect any
per-segment value and is a phantom parameter of the functional model. -/
def sieve_openmp_W (W N T : Nat) : Nat :=
  if N < 2 then 0
  else if N < 3 then 1
  else 1 + ((List.range (numSegments W N)).map
    (segCountOmp W N (simple_sieve (intSqrt N)))).sum

/-- `long long sieve_openmp(long long N, int num_threads)`. -/
def sieve_openmp (N T : Nat) : Nat := sieve_openmp_W SEG_SIZE N T

/-- The OpenMP sieve with an explicit dynamic schedule: `order` is the
sequence in which the workers claim segment ids and fold their counts.  The
model of a legal schedule is any permutation of the segment-id list. -/
def sieve_openmp_sched (W N : Nat) (order : List Nat) : Nat :=
  if N < 2 then 0
  else if N < 3 then 1
  else 1 + (order.map (segCountOmp W N (simple_sieve (intSqrt N)))).sum

/-! ## Guard-stripped variants (for the redundant-guard claim)

`sieve_serial` / `sieve_openmp` with the odd-adjustment increment, the
degenerate-segment skip branch and the final `num <= N` counting guard all
removed, following the claim's words. -/

/-- Serial segment loop without odd-adjustment, skip branch, or `num ≤ N` guard. -/
def segLoopSerialStripped (W N : Nat) (P : List Nat) : Nat → Nat → Nat
  | 0, _ => 0
  | fuel + 1, low =>
      if low ≤ N then
        let high := min (low + W - 1) N
        let oc := (high - low) / 2 + 1
        (List.range oc).countP (fun i => markSegmentSerial low high oc P (fun _ => true) i)
          + segLoopSerialStripped W N P fuel (low + W)
      else 0

/-- `sieve_serial` with the three never-firing branches removed. -/
def sieve_serial_stripped (N : Nat) : Nat :=
  if N < 2 then 0
  else 1 + segLoopSerialStripped SEG_SIZE N (simple_sieve (intSqrt N)) (N + 1) 3

/-- OpenMP per-segment count with the three never-firing branches removed. -/
def segCountOmpStripped (W N : Nat) (P : List Nat) (s : Nat) : Nat :=
  let low := rawLow W s
  let high := rawHigh W N s
  let oc := (high - low) / 2 + 1
  (List.range oc).countP (fun i => markSegmentOmp low high P (fun _ => true) i)

/-- `sieve_openmp` with the three never-firing branches removed. -/
def sieve_openmp_stripped (N T : Nat) : Nat :=
  if N < 2 then 0
  else if N < 3 then 1
  else 1 + ((List.range (numSegments SEG_SIZE N)).map
    (segCountOmpStripped SEG_SIZE N (simple_sieve (intSqrt N)))).sum

/-! ## Correctness of `simple_sieve` -/

theorem prime_iff_noSmallFactor (n : Nat) :
    n.Prime ↔ (2 ≤ n ∧ ∀ p, p.Prime → p * p ≤ n → ¬ p ∣ n) := by
  constructor
  · intro hn
    refine ⟨hn.two_le, fun p hp hpn hdvd => ?_⟩
    rcases (Nat.Prime.eq_one_or_self_of_dvd hn p hdvd) with h | h
    · exact absurd h (Nat.Prime.ne_one hp)
    · subst h
      have := hn.two_le
      nlinarith
  · rintro ⟨h2, h⟩
    by_contra hnp
    have h1 : n ≠ 1 := by omega
    have hqp : (Nat.minFac n).Prime := Nat.minFac_prime h1
    have hqd : Nat.minFac n ∣ n := Nat.minFac_dvd n
    have hq2 : Nat.minFac n * Nat.minFac n ≤ n := by
      have := Nat.minFac_sq_le_self (by omega) hnp
      rwa [pow_two] at this
    exact h _ hqp hq2 hqd

theorem markMultiples_spec (limit i : Nat) (hi : 1 ≤ i) :
    ∀ fuel j arr, limit + 1 ≤ fuel + j →
      ∀ n, (markMultiples limit i fuel j arr n = true ↔
        (arr n = true ∧ ¬(j ≤ n ∧ n ≤ limit ∧ i ∣ (n - j)))) := by
  intro fuel
  induction fuel with
  | zero =>
      intro j arr hf n
      simp only [markMultiples]
      constructor
      · intro h; exact ⟨h, by omega⟩
      · intro h; exact h.1
  | succ fuel ih =>
      intro j arr hf n
      by_cases hj : j ≤ limit
      · simp only [markMultiples, if_pos hj]
        rw [ih (j + i) _ (by omega) n]
        by_cases hnj : n = j
        · subst hnj
          simp only [if_pos rfl]
          constructor
          · intro h; exact absurd h.1 (by simp)
          · rintro ⟨_, hno⟩
            exact absurd ⟨le_refl _, hj, by simp⟩ hno
        · simp only [if_neg hnj]
          constructor
          · rintro ⟨ha, hno⟩
            refine ⟨ha, ?_⟩
            rintro ⟨hjn, hnl, c, hc⟩
            have hc1 : 1 ≤ c := by
              rcases Nat.eq_zero_or_pos c with h0 | h0
              · subst h0; omega
              · exact h0
            have hc' : c = (c - 1) + 1 := by omega
            rw [hc', Nat.mul_succ] at hc
            exact hno ⟨by omega, hnl, ⟨c - 1, by omega⟩⟩
          · rintro ⟨ha, hno⟩
            refine ⟨ha, ?_⟩
            rintro ⟨hjn, hnl, c, hc⟩
            exact hno ⟨by omega, hnl, ⟨c + 1, by rw [Nat.mul_succ]; omega⟩⟩
      · simp only [markMultiples, if_neg hj]
        constructor
        · intro h; exact ⟨h, by omega⟩
        · intro h; exact h.1

theorem noFactorBelow_exit (limit k n : Nat) (hn : n ≤ limit) (hex : limit < k * k) :
    (∀ p, p.Prime → p < k → p * p ≤ n → ¬ p ∣ n) ↔
      (∀ p, p.Prime → p * p ≤ n → ¬ p ∣ n) := by
  constructor
  · intro h p hp hpn hdvd
    by_cases hpk : p < k
    · exact h p hp hpk hpn hdvd
    · have hk : k ≤ p := Nat.le_of_not_lt hpk
      have : k * k ≤ p * p := Nat.mul_le_mul hk hk
      omega
  · intro h p hp _ hpn hdvd
    exact h p hp hpn hdvd

theorem sieveLoop_spec (limit : Nat) :
    ∀ fuel k arr, 2 ≤ k → limit + 1 ≤ fuel + k →
      (∀ n, n ≤ limit → (arr n = true ↔
        (2 ≤ n ∧ ∀ p, p.Prime → p < k → p * p ≤ n → ¬ p ∣ n))) →
      ∀ n, n ≤ limit → (sieveLoop limit fuel k arr n = true ↔
        (2 ≤ n ∧ ∀ p, p.Prime → p * p ≤ n → ¬ p ∣ n)) := by
  intro fuel
  induction fuel with
  | zero =>
      intro k arr hk hf hInv n hn
      simp only [sieveLoop]
      rw [hInv n hn]
      have hkk : k ≤ k * k := Nat.le_mul_of_pos_left k (by omega)
      exact and_congr_right fun _ => noFactorBelow_exit limit k n hn (by omega)
  | succ fuel ih =>
      intro k arr hk hf hInv n hn
      by_cases hcond : k * k ≤ limit
      · have hklim : k ≤ limit := le_trans (Nat.le_mul_of_pos_left k (by omega)) hcond
        have hkchar : (arr k = true) ↔ k.Prime := by
          rw [hInv k hklim]
          constructor
          · rintro ⟨h2k, hno⟩
            by_contra hnp
            have h1 : k ≠ 1 := by omega
            have hqp : (Nat.minFac k).Prime := Nat.minFac_prime h1
            have hqd : Nat.minFac k ∣ k := Nat.minFac_dvd k
            have hq2 : Nat.minFac k * Nat.minFac k ≤ k := by
              have := Nat.minFac_sq_le_self (n := k) (by omega) hnp
              rwa [pow_two] at this
            have hqlt : Nat.minFac k < k := by
              have hle : Nat.minFac k ≤ k := Nat.le_of_dvd (by omega) hqd
              rcases Nat.lt_or_ge (Nat.minFac k) k with h | h
              · exact h
              · have heq : Nat.minFac k = k := le_antisymm hle h
                exact absurd (Nat.prime_def_minFac.mpr ⟨by omega, heq⟩) hnp
            exact absurd hqd (hno _ hqp hqlt hq2)
          · intro hkp
            refine ⟨hkp.two_le, fun p hp hpk hpn hdvd => ?_⟩
            rcases (Nat.Prime.eq_one_or_self_of_dvd hkp p hdvd) with h | h
            · exact absurd h (Nat.Prime.ne_one hp)
            · omega
        simp only [sieveLoop, if_pos hcond]
        by_cases hak : arr k = true
        · have hkp : k.Prime := hkchar.mp hak
          rw [if_pos hak]
          refine ih (k + 1) _ (by omega) (by omega) ?_ n hn
          intro m hm
          rw [markMultiples_spec limit k (by omega) (limit + 1) (k * k) arr (by omega) m]
          rw [hInv m hm]
          constructor
          · rintro ⟨⟨h2m, hno⟩, hnomark⟩
            refine ⟨h2m, fun p hp hpk hpn hdvd => ?_⟩
            rcases Nat.lt_or_ge p k with hlt | hge
            · exact hno p hp hlt hpn hdvd
            · have hpe : p = k := by omega
              subst hpe
              rcases hdvd with ⟨c, hc⟩
              refine hnomark ⟨hpn, hm, ?_⟩
              have : p ∣ m - p * p := Nat.dvd_sub' ⟨c, hc⟩ (Dvd.intro p rfl)
              exact this
          · rintro ⟨h2m, hno⟩
            refine ⟨⟨h2m, fun p hp hpk hpn hdvd => hno p hp (by omega) hpn hdvd⟩, ?_⟩
            rintro ⟨hkm, hml, hdvd'⟩
            have hkdvd : k ∣ m := by
              have h1 : k ∣ m - k * k := hdvd'
              have h2 : k ∣ k * k := Dvd.intro k rfl
              have := Nat.dvd_add h1 h2
              rwa [Nat.sub_add_cancel hkm] at this
            exact hno k hkp (by omega) hkm hkdvd
        · have hknp : ¬ k.Prime := fun h => hak (hkchar.mpr h)
          rw [if_neg hak]
          refine ih (k + 1) _ (by omega) (by omega) ?_ n hn
          intro m hm
          rw [hInv m hm]
          constructor
          · rintro ⟨h2m, hno⟩
            refine ⟨h2m, fun p hp hpk hpn hdvd => ?_⟩
            rcases Nat.lt_or_ge p k with hlt | hge
            · exact hno p hp hlt hpn hdvd
            · have : p = k := by omega
              subst this
              exact absurd hp hknp
          · rintro ⟨h2m, hno⟩
            exact ⟨h2m, fun p hp hpk hpn hdvd => hno p hp (by omega) hpn hdvd⟩
      · simp only [sieveLoop, if_neg hcond]
        rw [hInv n hn]
        exact and_congr_right fun _ => noFactorBelow_exit limit k n hn (by omega)

theorem simple_sieve_mem (limit n : Nat) :
    n ∈ simple_sieve limit ↔ (n.Prime ∧ n ≤ limit) := by
  have hinv : ∀ m, m ≤ limit →
      ((decide (2 ≤ m) : Bool) = true ↔
        (2 ≤ m ∧ ∀ p, p.Prime → p < 2 → p * p ≤ m → ¬ p ∣ m)) := by
    intro m _
    simp only [decide_eq_true_eq]
    constructor
    · intro h
      refine ⟨h, fun p hp hplt _ _ => ?_⟩
      have := hp.two_le
      omega
    · exact fun h => h.1
  unfold simple_sieve
  simp only [List.mem_filter, List.mem_range, Bool.and_eq_true, decide_eq_true_eq]
  constructor
  · rintro ⟨hlt, h2, harr⟩
    have hn : n ≤ limit := by omega
    have hchar := (sieveLoop_spec limit (limit + 1) 2 _ (by omega) (by omega) hinv n hn).mp harr
    exact ⟨(prime_iff_noSmallFactor n).mpr hchar, hn⟩
  · rintro ⟨hp, hn⟩
    refine ⟨by omega, hp.two_le, ?_⟩
    exact (sieveLoop_spec limit (limit + 1) 2 _ (by omega) (by omega) hinv n hn).mpr
      ((prime_iff_noSmallFactor n).mp hp)

theorem simple_sieve_sorted (limit : Nat) :
    (simple_sieve limit).Pairwise (· < ·) := by
  unfold simple_sieve
  exact (List.pairwise_lt_range _).filter _

/-! ## Characterisation of the per-segment marking -/

theorem markIterSerial_spec (low high oc step : Nat) (hstep2 : step % 2 = 0)
    (hstep : 0 < step) :
    ∀ fuel x buf, high + 1 ≤ fuel + x → low ≤ x → (x - low) % 2 = 0 →
      ∀ i, (markIterSerial low high oc step fuel x buf i = true ↔
        (buf i = true ∧ ¬(i < oc ∧ x ≤ low + 2 * i ∧ low + 2 * i ≤ high ∧
          step ∣ (low + 2 * i - x)))) := by
  intro fuel
  induction fuel with
  | zero =>
      intro x buf hf hlx hpar i
      simp only [markIterSerial]
      exact ⟨fun h => ⟨h, by omega⟩, fun h => h.1⟩
  | succ fuel ih =>
      intro x buf hf hlx hpar i
      by_cases hx : x ≤ high
      · simp only [markIterSerial, if_pos hx]
        rw [ih (x + step) _ (by omega) (by omega) (by omega) i]
        by_cases hieq : i = (x - low) / 2
        · subst hieq
          by_cases hioc : (x - low) / 2 < oc
          · rw [if_pos hioc]
            simp only [if_pos rfl]
            constructor
            · rintro ⟨hfalse, _⟩; exact absurd hfalse (by simp)
            · rintro ⟨_, hno⟩
              exact absurd ⟨hioc, by omega, by omega, ⟨0, by omega⟩⟩ hno
          · rw [if_neg hioc]
            constructor
            · rintro ⟨hb, _⟩
              refine ⟨hb, ?_⟩; rintro ⟨hc, _⟩; exact hioc hc
            · rintro ⟨hb, _⟩
              refine ⟨hb, ?_⟩; rintro ⟨hc, _⟩; exact hioc hc
        · have hbuf' : (if (x - low) / 2 < oc then
              (fun n => if n = (x - low) / 2 then false else buf n) else buf) i = buf i := by
            by_cases hioc : (x - low) / 2 < oc
            · rw [if_pos hioc]; simp [hieq]
            · rw [if_neg hioc]
          rw [hbuf']
          constructor
          · rintro ⟨hb, hno⟩
            refine ⟨hb, ?_⟩
            rintro ⟨hioc, hxu, huh, c, hc⟩
            have hc1 : 1 ≤ c := by
              rcases Nat.eq_zero_or_pos c with h0 | h0
              · subst h0; simp at hc; omega
              · exact h0
            have hc' : c = (c - 1) + 1 := by omega
            rw [hc', Nat.mul_succ] at hc
            exact hno ⟨hioc, by omega, huh, ⟨c - 1, by omega⟩⟩
          · rintro ⟨hb, hno⟩
            refine ⟨hb, ?_⟩
            rintro ⟨hioc, hxu, huh, c, hc⟩
            exact hno ⟨hioc, by omega, huh, ⟨c + 1, by rw [Nat.mul_succ]; omega⟩⟩
      · simp only [markIterSerial, if_neg hx]
        exact ⟨fun h => ⟨h, by omega⟩, fun h => h.1⟩

theorem firstMultiple_ge (p low : Nat) (hp : 0 < p) : low ≤ firstMultiple p low := by
  unfold firstMultiple
  have h := Nat.div_add_mod (low + p - 1) p
  have hm : (low + p - 1) % p < p := Nat.mod_lt _ hp
  rw [Nat.mul_comm]
  omega

theorem firstMultiple_dvd (p low : Nat) : p ∣ firstMultiple p low :=
  Dvd.intro_left _ rfl

theorem firstMultiple_min (p low m : Nat) (hp : 0 < p) (hdvd : p ∣ m) (hlm : low ≤ m) :
    firstMultiple p low ≤ m := by
  obtain ⟨a, ha⟩ := hdvd
  unfold firstMultiple
  have hq : (low + p - 1) / p ≤ a := by
    have hlt : low + p - 1 < (a + 1) * p := by
      have : (a + 1) * p = p * a + p := by ring
      omega
    have := (Nat.div_lt_iff_lt_mul hp).mpr hlt
    omega
  calc ((low + p - 1) / p) * p ≤ a * p := Nat.mul_le_mul_right p hq
    _ = m := by rw [ha, Nat.mul_comm]

theorem segmentStart_dvd (p low : Nat) : p ∣ segmentStart p low := by
  unfold segmentStart
  have hmax : p ∣ max (p * p) (firstMultiple p low) := by
    rcases max_choice (p * p) (firstMultiple p low) with h | h
    · rw [h]; exact Dvd.intro p rfl
    · rw [h]; exact firstMultiple_dvd p low
  by_cases h : (max (p * p) (firstMultiple p low)) % 2 = 0
  · simp only [if_pos h]
    exact Nat.dvd_add hmax (dvd_refl p)
  · simp only [if_neg h]
    exact hmax

theorem segmentStart_ge_low (p low : Nat) (hp : 0 < p) : low ≤ segmentStart p low := by
  unfold segmentStart
  have h1 : low ≤ max (p * p) (firstMultiple p low) :=
    le_trans (firstMultiple_ge p low hp) (le_max_right _ _)
  by_cases h : (max (p * p) (firstMultiple p low)) % 2 = 0
  · simp only [if_pos h]; omega
  · simp only [if_neg h]; exact h1

theorem segmentStart_ge_sq (p low : Nat) : p * p ≤ segmentStart p low := by
  unfold segmentStart
  have h1 : p * p ≤ max (p * p) (firstMultiple p low) := le_max_left _ _
  by_cases h : (max (p * p) (firstMultiple p low)) % 2 = 0
  · simp only [if_pos h]; omega
  · simp only [if_neg h]; exact h1

theorem segmentStart_odd (p low : Nat) (hpodd : p % 2 = 1) :
    segmentStart p low % 2 = 1 := by
  unfold segmentStart
  by_cases h : (max (p * p) (firstMultiple p low)) % 2 = 0
  · simp only [if_pos h]; omega
  · simp only [if_neg h]; omega

theorem segmentStart_min (p low u : Nat) (hpodd : p % 2 = 1) (hu : low ≤ u)
    (huodd : u % 2 = 1) (hdvd : p ∣ u) (hsq : p * p ≤ u) :
    segmentStart p low ≤ u := by
  have hppos : 0 < p := by omega
  have h1 : firstMultiple p low ≤ u := firstMultiple_min p low u hppos hdvd hu
  have h2 : max (p * p) (firstMultiple p low) ≤ u := max_le hsq h1
  unfold segmentStart
  by_cases h : (max (p * p) (firstMultiple p low)) % 2 = 0
  · simp only [if_pos h]
    obtain ⟨a, ha⟩ := hdvd
    obtain ⟨b, hb⟩ : p ∣ max (p * p) (firstMultiple p low) := by
      rcases max_choice (p * p) (firstMultiple p low) with hm | hm
      · rw [hm]; exact Dvd.intro p rfl
      · rw [hm]; exact firstMultiple_dvd p low
    have hne : u ≠ max (p * p) (firstMultiple p low) := by omega
    have hab : b < a := by
      by_contra hba
      push_neg at hba
      have hle : u ≤ max (p * p) (firstMultiple p low) := by
        rw [ha, hb]; exact Nat.mul_le_mul_left p hba
      omega
    have : p * b + p ≤ p * a := by
      have : p * (b + 1) ≤ p * a := Nat.mul_le_mul_left p hab
      rw [Nat.mul_succ] at this
      exact this
    omega
  · simp only [if_neg h]; exact h2

theorem segmentStart_cond (p low u : Nat) (hpodd : p % 2 = 1) (hp1 : 1 < p)
    (hu : low ≤ u) (huodd : u % 2 = 1) :
    (segmentStart p low ≤ u ∧ 2 * p ∣ (u - segmentStart p low)) ↔
      (p ∣ u ∧ p * p ≤ u) := by
  constructor
  · rintro ⟨hle, c, hc⟩
    have hs := segmentStart_dvd p low
    have hsq := segmentStart_ge_sq p low
    constructor
    · have hu' : u = segmentStart p low + 2 * p * c := by omega
      rw [hu']
      exact Nat.dvd_add hs ⟨2 * c, by ring⟩
    · omega
  · rintro ⟨hdvd, hsq⟩
    have hle : segmentStart p low ≤ u := segmentStart_min p low u hpodd hu huodd hdvd hsq
    refine ⟨hle, ?_⟩
    obtain ⟨a, ha⟩ := hdvd
    obtain ⟨b, hb⟩ := segmentStart_dvd p low
    have hsodd := segmentStart_odd p low hpodd
    have haodd : a % 2 = 1 := by
      rcases Nat.even_or_odd a with he | ho
      · exfalso
        obtain ⟨t, ht⟩ := he
        have : p * a = 2 * (p * t) := by rw [ht]; ring
        omega
      · obtain ⟨t, ht⟩ := ho; omega
    have hbodd : b % 2 = 1 := by
      rcases Nat.even_or_odd b with he | ho
      · exfalso
        obtain ⟨t, ht⟩ := he
        have : p * b = 2 * (p * t) := by rw [ht]; ring
        omega
      · obtain ⟨t, ht⟩ := ho; omega
    have hba : b ≤ a := by
      have hmul : p * b ≤ p * a := by rw [← hb, ← ha]; exact hle
      exact Nat.le_of_mul_le_mul_left hmul (by omega)
    obtain ⟨t, ht⟩ : ∃ t, a - b = 2 * t := ⟨(a - b) / 2, by omega⟩
    refine ⟨t, ?_⟩
    have haeq : a = b + 2 * t := by omega
    have hkey : u = segmentStart p low + 2 * p * t := by
      rw [ha, haeq, hb]; ring
    omega

theorem markSegmentSerial_spec :
    ∀ (P : List Nat) (low high oc : Nat) (buf : Nat → Bool),
      low % 2 = 1 → 3 ≤ low →
      (∀ p ∈ P, p.Prime) → P.Pairwise (· < ·) →
      ∀ i, (markSegmentSerial low high oc P buf i = true ↔
        (buf i = true ∧ ∀ p ∈ P, p ≠ 2 → p * p ≤ high →
          ¬(i < oc ∧ p ∣ (low + 2 * i) ∧ p * p ≤ low + 2 * i ∧ low + 2 * i ≤ high))) := by
  intro P
  induction P with
  | nil =>
      intro low high oc buf hlow h3 hprime hsort i
      simp [markSegmentSerial]
  | cons p ps ih =>
      intro low high oc buf hlow h3 hprime hsort i
      have hpp : p.Prime := hprime p (by simp)
      have hpsprime : ∀ q ∈ ps, q.Prime := fun q hq => hprime q (by simp [hq])
      have hsort' : ps.Pairwise (· < ·) := (List.pairwise_cons.mp hsort).2
      have hplt : ∀ q ∈ ps, p < q := (List.pairwise_cons.mp hsort).1
      by_cases hp2 : p = 2
      · subst hp2
        simp only [markSegmentSerial]
        rw [if_pos trivial]
        rw [ih low high oc buf hlow h3 hpsprime hsort' i]
        constructor
        · rintro ⟨hb, h⟩
          refine ⟨hb, ?_⟩
          intro q hq hq2 hqh
          rcases List.mem_cons.mp hq with rfl | hq'
          · exact absurd rfl hq2
          · exact h q hq' hq2 hqh
        · rintro ⟨hb, h⟩
          exact ⟨hb, fun q hq hq2 hqh => h q (by simp [hq]) hq2 hqh⟩
      · by_cases hph : high < p * p
        · simp only [markSegmentSerial, if_neg hp2, if_pos hph]
          constructor
          · intro hb
            refine ⟨hb, ?_⟩
            intro q hq hq2 hqh
            rcases List.mem_cons.mp hq with rfl | hq'
            · omega
            · have hpq := hplt q hq'
              have : p * p < q * q := Nat.mul_lt_mul_of_lt_of_le hpq (le_of_lt hpq) (by omega)
              omega
          · exact fun h => h.1
        · push_neg at hph
          simp only [markSegmentSerial, if_neg hp2, if_neg (not_lt.mpr hph)]
          have hpodd : p % 2 = 1 := by
            rcases hpp.eq_two_or_odd with h | h
            · exact absurd h hp2
            · exact h
          have hp1 : 1 < p := hpp.one_lt
          have hpar : (segmentStart p low - low) % 2 = 0 := by
            have h1 := segmentStart_odd p low hpodd
            have h2 := segmentStart_ge_low p low (by omega)
            omega
          rw [ih low high oc _ hlow h3 hpsprime hsort' i]
          rw [markIterSerial_spec low high oc (2 * p) (by omega) (by omega) (high + 1)
            (segmentStart p low) buf (by omega) (segmentStart_ge_low p low (by omega)) hpar i]
          constructor
          · rintro ⟨⟨hb, hnomark⟩, hrest⟩
            refine ⟨hb, ?_⟩
            intro q hq hq2 hqh
            rcases List.mem_cons.mp hq with rfl | hq'
            · rintro ⟨hioc, hdvd, hsq, hhigh⟩
              have huodd : (low + 2 * i) % 2 = 1 := by omega
              have hc := (segmentStart_cond q low (low + 2 * i) hpodd hp1
                (by omega) huodd).mpr ⟨hdvd, hsq⟩
              exact hnomark ⟨hioc, hc.1, hhigh, hc.2⟩
            · exact hrest q hq' hq2 hqh
          · rintro ⟨hb, hall⟩
            refine ⟨⟨hb, ?_⟩, fun q hq hq2 hqh => hall q (by simp [hq]) hq2 hqh⟩
            rintro ⟨hioc, hxle, hhigh, hdvd2p⟩
            have huodd : (low + 2 * i) % 2 = 1 := by omega
            have hc := (segmentStart_cond p low (low + 2 * i) hpodd hp1
              (by omega) huodd).mp ⟨hxle, hdvd2p⟩
            exact hall p (by simp) hp2 hph ⟨hioc, hc.1, hc.2, hhigh⟩

/-! ## The unguarded OpenMP write agrees with the guarded serial write -/

theorem markIterOmp_eq_serial (low high step : Nat) :
    ∀ fuel x buf, low ≤ x →
      markIterOmp low high step fuel x buf =
        markIterSerial low high ((high - low) / 2 + 1) step fuel x buf := by
  intro fuel
  induction fuel with
  | zero => intro x buf _; rfl
  | succ fuel ih =>
      intro x buf hlx
      by_cases hx : x ≤ high
      · simp only [markIterOmp, markIterSerial, if_pos hx]
        have hguard : (x - low) / 2 < (high - low) / 2 + 1 := by
          have : (x - low) / 2 ≤ (high - low) / 2 := Nat.div_le_div_right (by omega)
          omega
        rw [if_pos hguard]
        exact ih (x + step) _ (by omega)
      · simp only [markIterOmp, markIterSerial, if_neg hx]

theorem markSegmentOmp_eq_serial (low high : Nat) :
    ∀ (P : List Nat) (buf : Nat → Bool), (∀ p ∈ P, 0 < p) →
      markSegmentOmp low high P buf =
        markSegmentSerial low high ((high - low) / 2 + 1) P buf := by
  intro P
  induction P with
  | nil => intro buf _; rfl
  | cons p ps ih =>
      intro buf hpos
      have hp : 0 < p := hpos p (by simp)
      have hps : ∀ q ∈ ps, 0 < q := fun q hq => hpos q (by simp [hq])
      by_cases hp2 : p = 2
      · subst hp2
        simp only [markSegmentOmp, markSegmentSerial]
        rw [if_pos trivial, if_pos trivial]
        exact ih buf hps
      · by_cases hph : high < p * p
        · simp only [markSegmentOmp, markSegmentSerial, if_neg hp2, if_pos hph]
        · simp only [markSegmentOmp, markSegmentSerial, if_neg hp2, if_neg hph]
          rw [markIterOmp_eq_serial low high (2 * p) (high + 1) (segmentStart p low)
            buf (segmentStart_ge_low p low hp)]
          exact ih _ hps

/-! ## Counting survivors = counting primes in the segment -/

/-- The mathematical reference: the set of primes in the closed range `[a, b]`. -/
def primesBetween (a b : Nat) : Finset Nat :=
  (Finset.Icc a b).filter (fun n => n.Prime)

theorem countP_range_card (n : Nat) (f : Nat → Bool) :
    (List.range n).countP f = ((Finset.range n).filter (fun i => f i = true)).card := by
  induction n with
  | zero => simp
  | succ n ih =>
      rw [List.range_succ, List.countP_append, ih, Finset.range_succ, Finset.filter_insert]
      by_cases h : f n = true
      · rw [if_pos h, Finset.card_insert_of_not_mem (by simp)]
        simp [List.countP_cons, h]
      · rw [if_neg h]
        simp [List.countP_cons, h]

theorem survivor_iff_prime (N : Nat) (P : List Nat)
    (hmem : ∀ p, p ∈ P ↔ (p.Prime ∧ p ≤ Nat.sqrt N))
    (hsort : P.Pairwise (· < ·))
    (low high : Nat) (hlow : low % 2 = 1) (h3 : 3 ≤ low) (hle : low ≤ high)
    (hhN : high ≤ N) (i : Nat) (hi : i < (high - low) / 2 + 1) :
    (markSegmentSerial low high ((high - low) / 2 + 1) P (fun _ => true) i = true ↔
      (low + 2 * i).Prime) := by
  set oc := (high - low) / 2 + 1 with hoc
  have hprime : ∀ p ∈ P, p.Prime := fun p hp => ((hmem p).mp hp).1
  have huh : low + 2 * i ≤ high := by omega
  have hchar := markSegmentSerial_spec P low high oc (fun _ => true) hlow h3 hprime hsort i
  rw [hchar]
  constructor
  · rintro ⟨_, hall⟩
    by_contra hp
    have h1 : low + 2 * i ≠ 1 := by omega
    have hqp : (Nat.minFac (low + 2 * i)).Prime := Nat.minFac_prime h1
    have hqd : Nat.minFac (low + 2 * i) ∣ (low + 2 * i) := Nat.minFac_dvd _
    have hq2 : Nat.minFac (low + 2 * i) * Nat.minFac (low + 2 * i) ≤ low + 2 * i := by
      have := Nat.minFac_sq_le_self (n := low + 2 * i) (by omega) hp
      rwa [pow_two] at this
    have hqsqrt : Nat.minFac (low + 2 * i) ≤ Nat.sqrt N :=
      Nat.le_sqrt.mpr (le_trans hq2 (by omega))
    have hqP : Nat.minFac (low + 2 * i) ∈ P := (hmem _).mpr ⟨hqp, hqsqrt⟩
    have hqne2 : Nat.minFac (low + 2 * i) ≠ 2 := by
      intro h2
      rw [h2] at hqd
      obtain ⟨c, hc⟩ := hqd
      omega
    have hqhigh : Nat.minFac (low + 2 * i) * Nat.minFac (low + 2 * i) ≤ high :=
      le_trans hq2 huh
    exact hall _ hqP hqne2 hqhigh ⟨hi, hqd, hq2, huh⟩
  · intro hp
    refine ⟨rfl, ?_⟩
    intro q hq hq2 hqh
    rintro ⟨_, hdvd, hsq, _⟩
    have hqp := ((hmem q).mp hq).1
    rcases (Nat.Prime.eq_one_or_self_of_dvd hp q hdvd) with h | h
    · exact absurd h hqp.ne_one
    · have h2q := hqp.two_le
      nlinarith

theorem segment_core (N : Nat) (P : List Nat)
    (hmem : ∀ p, p ∈ P ↔ (p.Prime ∧ p ≤ Nat.sqrt N))
    (hsort : P.Pairwise (· < ·))
    (low high : Nat) (hlow : low % 2 = 1) (h3 : 3 ≤ low) (hle : low ≤ high)
    (hhN : high ≤ N) :
    countSurvivors N low ((high - low) / 2 + 1)
      (markSegmentSerial low high ((high - low) / 2 + 1) P (fun _ => true)) =
    (primesBetween low high).card := by
  set oc := (high - low) / 2 + 1 with hoc
  unfold countSurvivors
  have hpred : ∀ i ∈ List.range oc,
      (((markSegmentSerial low high oc P (fun _ => true)) i &&
          decide (low + 2 * i ≤ N)) = true ↔
        decide ((low + 2 * i).Prime) = true) := by
    intro i hi
    rw [List.mem_range] at hi
    have huN : low + 2 * i ≤ N := by omega
    have hs := survivor_iff_prime N P hmem hsort low high hlow h3 hle hhN i hi
    rw [Bool.and_eq_true, decide_eq_true_eq, decide_eq_true_eq]
    constructor
    · rintro ⟨h1, _⟩
      exact hs.mp h1
    · intro hp
      exact ⟨hs.mpr hp, huN⟩
  rw [List.countP_congr hpred, countP_range_card]
  apply Finset.card_bij (fun i _ => low + 2 * i)
  · intro a ha
    simp only [Finset.mem_filter, Finset.mem_range, decide_eq_true_eq] at ha
    simp only [primesBetween, Finset.mem_filter, Finset.mem_Icc]
    exact ⟨⟨by omega, by omega⟩, ha.2⟩
  · intro a₁ h₁ a₂ h₂ heq
    omega
  · intro b hb
    simp only [primesBetween, Finset.mem_filter, Finset.mem_Icc] at hb
    obtain ⟨⟨hlb, hbh⟩, hbp⟩ := hb
    have hbodd : b % 2 = 1 := by
      rcases hbp.eq_two_or_odd with h | h
      · omega
      · exact h
    refine ⟨(b - low) / 2, ?_, by omega⟩
    simp only [Finset.mem_filter, Finset.mem_range, decide_eq_true_eq]
    constructor
    · have : (b - low) / 2 ≤ (high - low) / 2 :=
        Nat.div_le_div_right (by omega : b - low ≤ high - low)
      omega
    · have heq : low + 2 * ((b - low) / 2) = b := by omega
      rw [heq]
      exact hbp

/-! ## Splitting the prime-count over segment ranges -/

theorem primesBetween_split (low high N : Nat) (hle : low ≤ high) (hhN : high ≤ N) :
    (primesBetween low N).card =
      (primesBetween low high).card + (primesBetween (high + 1) N).card := by
  have hunion : primesBetween low N = primesBetween low high ∪ primesBetween (high + 1) N := by
    unfold primesBetween
    rw [← Finset.filter_union]
    congr 1
    ext n
    simp only [Finset.mem_union, Finset.mem_Icc]
    omega
  rw [hunion, Finset.card_union_of_disjoint]
  rw [Finset.disjoint_left]
  intro a ha hb
  simp only [primesBetween, Finset.mem_filter, Finset.mem_Icc] at ha hb
  omega

theorem primesBetween_empty (low N : Nat) (h : N < low) :
    (primesBetween low N).card = 0 := by
  unfold primesBetween
  rw [Finset.Icc_eq_empty (by omega)]
  simp

theorem primesBetween_evenLow (low high : Nat) (heven : low % 2 = 0) (h3 : 3 ≤ low) :
    (primesBetween low high).card = (primesBetween (low + 1) high).card := by
  unfold primesBetween
  congr 1
  ext n
  simp only [Finset.mem_filter, Finset.mem_Icc]
  constructor
  · rintro ⟨⟨hln, hnh⟩, hp⟩
    refine ⟨⟨?_, hnh⟩, hp⟩
    rcases Nat.eq_or_lt_of_le hln with h | h
    · exfalso
      rcases hp.eq_two_or_odd with h2 | hodd
      · omega
      · omega
    · omega
  · rintro ⟨⟨hln, hnh⟩, hp⟩
    exact ⟨⟨by omega, hnh⟩, hp⟩

/-! ## Aggregation: the serial segment loop -/

theorem segLoopSerial_eq (N W : Nat) (P : List Nat)
    (hmem : ∀ p, p ∈ P ↔ (p.Prime ∧ p ≤ Nat.sqrt N)) (hsort : P.Pairwise (· < ·))
    (hWeven : W % 2 = 0) (hW1 : 1 ≤ W) :
    ∀ fuel low, low % 2 = 1 → 3 ≤ low → N + 1 ≤ fuel + low →
      segLoopSerial W N P fuel low = (primesBetween low N).card := by
  intro fuel
  induction fuel with
  | zero =>
      intro low hlow h3 hf
      rw [primesBetween_empty low N (by omega)]
      rfl
  | succ fuel ih =>
      intro low hlow h3 hf
      by_cases hlN : low ≤ N
      · have hne : ¬(low % 2 = 0) := by omega
        have hhge : low ≤ min (low + W - 1) N := by omega
        have hnskip : ¬(min (low + W - 1) N < low) := by omega
        simp only [segLoopSerial, if_pos hlN, if_neg hne, if_neg hnskip]
        rw [segment_core N P hmem hsort low (min (low + W - 1) N) hlow h3 hhge
          (min_le_right _ _)]
        rw [ih (low + W) (by omega) (by omega) (by omega)]
        by_cases hcut : low + W - 1 ≤ N
        · have hmin : min (low + W - 1) N = low + W - 1 := min_eq_left hcut
          rw [hmin]
          rw [primesBetween_split low (low + W - 1) N (by omega) hcut]
          have : low + W - 1 + 1 = low + W := by omega
          rw [this]
        · have hmin : min (low + W - 1) N = N := min_eq_right (by omega)
          rw [hmin]
          rw [primesBetween_empty (low + W) N (by omega)]
          omega
      · simp only [segLoopSerial, if_neg hlN]
        rw [primesBetween_empty low N (by omega)]

/-! ## Aggregation: the OpenMP segment sum -/

theorem segCountOmp_eq (N W : Nat) (P : List Nat)
    (hmem : ∀ p, p ∈ P ↔ (p.Prime ∧ p ≤ Nat.sqrt N)) (hsort : P.Pairwise (· < ·))
    (hW1 : 1 ≤ W) (k : Nat) (hkN : rawLow W k ≤ N) :
    segCountOmp W N P k = (primesBetween (rawLow W k) (rawHigh W N k)).card := by
  have hpos : ∀ p ∈ P, 0 < p := fun p hp => by
    have := ((hmem p).mp hp).1.two_le
    omega
  have h3 : 3 ≤ rawLow W k := by unfold rawLow; omega
  have hlh : rawLow W k ≤ rawHigh W N k := by
    unfold rawHigh
    omega
  have hhN : rawHigh W N k ≤ N := min_le_right _ _
  unfold segCountOmp
  dsimp only
  by_cases hLodd : rawLow W k % 2 = 0
  · rw [if_pos hLodd]
    by_cases hskip : rawHigh W N k < rawLow W k + 1
    · rw [if_pos hskip]
      have hLL : rawHigh W N k = rawLow W k := by omega
      rw [hLL, primesBetween_evenLow _ _ hLodd h3,
        primesBetween_empty _ _ (by omega)]
    · rw [if_neg hskip]
      rw [markSegmentOmp_eq_serial _ _ P _ hpos]
      rw [segment_core N P hmem hsort (rawLow W k + 1) (rawHigh W N k)
        (by omega) (by omega) (by omega) hhN]
      rw [primesBetween_evenLow _ _ hLodd h3]
  · rw [if_neg hLodd]
    have hnskip : ¬(rawHigh W N k < rawLow W k) := by omega
    rw [if_neg hnskip]
    rw [markSegmentOmp_eq_serial _ _ P _ hpos]
    rw [segment_core N P hmem hsort (rawLow W k) (rawHigh W N k)
      (by omega) h3 hlh hhN]

theorem ompSum_eq (N W : Nat) (P : List Nat)
    (hmem : ∀ p, p ∈ P ↔ (p.Prime ∧ p ≤ Nat.sqrt N)) (hsort : P.Pairwise (· < ·))
    (hW1 : 1 ≤ W) (hN3 : 3 ≤ N) :
    ∀ m k, k + m = numSegments W N →
      ((List.range' k m).map (segCountOmp W N P)).sum =
        (primesBetween (rawLow W k) N).card := by
  intro m
  induction m with
  | zero =>
      intro k hk
      have hk' : k = (N - 3 + 1 + (W - 1)) / W := by
        unfold numSegments at hk
        omega
      have hdm := Nat.div_add_mod (N - 3 + 1 + (W - 1)) W
      have hmlt : (N - 3 + 1 + (W - 1)) % W < W := Nat.mod_lt _ (by omega)
      have hbig : N < rawLow W k := by
        unfold rawLow
        rw [hk', Nat.mul_comm]
        omega
      rw [primesBetween_empty _ _ hbig]
      rfl
  | succ m ih =>
      intro k hk
      have hkN : rawLow W k ≤ N := by
        have hk1 : k + 1 ≤ numSegments W N := by omega
        unfold numSegments at hk1
        have := (Nat.le_div_iff_mul_le (by omega : 0 < W)).mp hk1
        have hexp : (k + 1) * W = k * W + W := by ring
        unfold rawLow
        omega
      rw [List.range'_succ, List.map_cons, List.sum_cons]
      rw [segCountOmp_eq N W P hmem hsort hW1 k hkN]
      rw [ih (k + 1) (by omega)]
      have hnext : rawLow W (k + 1) = rawLow W k + W := by
        unfold rawLow
        ring
      rw [hnext]
      by_cases hcut : rawLow W k + W - 1 ≤ N
      · have hmin : rawHigh W N k = rawLow W k + W - 1 := by
          unfold rawHigh
          omega
        rw [hmin]
        rw [primesBetween_split (rawLow W k) (rawLow W k + W - 1) N (by omega) hcut]
        have : rawLow W k + W - 1 + 1 = rawLow W k + W := by omega
        rw [this]
      · have hmin : rawHigh W N k = N := by
          unfold rawHigh
          omega
        rw [hmin]
        rw [primesBetween_split (rawLow W k) N N (by omega) (le_refl _),
          primesBetween_empty (N + 1) N (by omega),
          primesBetween_empty (rawLow W k + W) N (by omega)]

/-! ## Top-level equalities with the prime-counting function -/

theorem primesBetween_two (N : Nat) (hN : 2 ≤ N) :
    (primesBetween 2 N).card = 1 + (primesBetween 3 N).card := by
  have hins : primesBetween 2 N = insert 2 (primesBetween 3 N) := by
    unfold primesBetween
    ext n
    simp only [Finset.mem_insert, Finset.mem_filter, Finset.mem_Icc]
    constructor
    · rintro ⟨⟨h2n, hnN⟩, hp⟩
      rcases Nat.eq_or_lt_of_le h2n with h | h
      · left; omega
      · right; exact ⟨⟨by omega, hnN⟩, hp⟩
    · rintro (rfl | ⟨⟨h3n, hnN⟩, hp⟩)
      · exact ⟨⟨le_refl _, by omega⟩, Nat.prime_two⟩
      · exact ⟨⟨by omega, hnN⟩, hp⟩
  rw [hins, Finset.card_insert_of_not_mem]
  · omega
  · simp only [primesBetween, Finset.mem_filter, Finset.mem_Icc]
    omega

theorem simple_sieve_basePrimes (N : Nat) :
    ∀ p, p ∈ simple_sieve (intSqrt N) ↔ (p.Prime ∧ p ≤ Nat.sqrt N) := by
  intro p
  rw [simple_sieve_mem, intSqrt_eq_sqrt]

theorem sieve_serial_W_eq (W N : Nat) (hWeven : W % 2 = 0) (hW1 : 1 ≤ W) :
    sieve_serial_W W N = (primesBetween 2 N).card := by
  unfold sieve_serial_W
  by_cases hN : N < 2
  · rw [if_pos hN, primesBetween_empty 2 N (by omega)]
  · rw [if_neg hN]
    rw [segLoopSerial_eq N W _ (simple_sieve_basePrimes N)
      (simple_sieve_sorted (intSqrt N)) hWeven hW1 (N + 1) 3 (by omega) (by omega)
      (by omega)]
    rw [primesBetween_two N (by omega)]

theorem sieve_openmp_W_eq (W N T : Nat) (hW1 : 1 ≤ W) :
    sieve_openmp_W W N T = (primesBetween 2 N).card := by
  unfold sieve_openmp_W
  by_cases hN2 : N < 2
  · rw [if_pos hN2, primesBetween_empty 2 N (by omega)]
  · rw [if_neg hN2]
    by_cases hN3 : N < 3
    · rw [if_pos hN3]
      have hN2' : N = 2 := by omega
      subst hN2'
      rw [primesBetween_two 2 (le_refl _), primesBetween_empty 3 2 (by omega)]
    · rw [if_neg hN3]
      rw [List.range_eq_range']
      rw [ompSum_eq N W _ (simple_sieve_basePrimes N)
        (simple_sieve_sorted (intSqrt N)) hW1 (by omega) (numSegments W N) 0 (by omega)]
      have h3 : rawLow W 0 = 3 := by unfold rawLow; ring
      rw [h3, primesBetween_two N (by omega)]

theorem sieve_serial_eq (N : Nat) : sieve_serial N = (primesBetween 2 N).card := by
  unfold sieve_serial
  exact sieve_serial_W_eq SEG_SIZE N (by decide) (by decide)

theorem sieve_openmp_eq (N T : Nat) : sieve_openmp N T = (primesBetween 2 N).card := by
  unfold sieve_openmp
  exact sieve_openmp_W_eq SEG_SIZE N T (by decide)

/-! ## Early termination: the break is equivalent to processing every prime -/

theorem markIterSerial_noop (low high oc step : Nat) :
    ∀ fuel x buf, high < x → markIterSerial low high oc step fuel x buf = buf := by
  intro fuel x buf hx
  cases fuel with
  | zero => rfl
  | succ fuel => simp only [markIterSerial, if_neg (by omega : ¬ x ≤ high)]

theorem markSegmentSerialFull_noop (low high oc : Nat) :
    ∀ (P : List Nat) (buf : Nat → Bool), (∀ p ∈ P, 1 ≤ p ∧ (p ≠ 2 → high < p * p)) →
      markSegmentSerialFull low high oc P buf = buf := by
  intro P
  induction P with
  | nil => intro buf _; rfl
  | cons p ps ih =>
      intro buf hP
      have hp := hP p (by simp)
      by_cases hp2 : p = 2
      · subst hp2
        simp only [markSegmentSerialFull]
        rw [if_pos trivial]
        exact ih buf (fun q hq => hP q (by simp [hq]))
      · simp only [markSegmentSerialFull, if_neg hp2]
        rw [markIterSerial_noop low high oc (2 * p) (high + 1) (segmentStart p low) buf
          (lt_of_lt_of_le (hp.2 hp2) (segmentStart_ge_sq p low))]
        exact ih buf (fun q hq => hP q (by simp [hq]))

theorem markSegmentSerialFull_eq (low high oc : Nat) :
    ∀ (P : List Nat) (buf : Nat → Bool), P.Pairwise (· < ·) → (∀ p ∈ P, 2 ≤ p) →
      markSegmentSerialFull low high oc P buf = markSegmentSerial low high oc P buf := by
  intro P
  induction P with
  | nil => intro buf _ _; rfl
  | cons p ps ih =>
      intro buf hsort h2
      have hplt : ∀ q ∈ ps, p < q := (List.pairwise_cons.mp hsort).1
      have hsort' : ps.Pairwise (· < ·) := (List.pairwise_cons.mp hsort).2
      have h2' : ∀ q ∈ ps, 2 ≤ q := fun q hq => h2 q (by simp [hq])
      by_cases hp2 : p = 2
      · subst hp2
        simp only [markSegmentSerialFull, markSegmentSerial]
        rw [if_pos trivial, if_pos trivial]
        exact ih buf hsort' h2'
      · by_cases hph : high < p * p
        · simp only [markSegmentSerialFull, markSegmentSerial, if_neg hp2, if_pos hph]
          rw [markIterSerial_noop low high oc (2 * p) (high + 1) (segmentStart p low) buf
            (lt_of_lt_of_le hph (segmentStart_ge_sq p low))]
          apply markSegmentSerialFull_noop
          intro q hq
          have hpq := hplt q hq
          have hqq : p * p < q * q :=
            Nat.mul_lt_mul_of_lt_of_le hpq (le_of_lt hpq) (by omega)
          exact ⟨by omega, fun _ => by omega⟩
        · simp only [markSegmentSerialFull, markSegmentSerial, if_neg hp2, if_neg hph]
          exact ih _ hsort' h2'

/-! ## The three never-firing guards (default even width) -/

theorem countSurvivors_noguard (N low high : Nat) (buf : Nat → Bool)
    (hlh : low ≤ high) (hhn : high ≤ N) :
    countSurvivors N low ((high - low) / 2 + 1) buf =
      (List.range ((high - low) / 2 + 1)).countP (fun i => buf i) := by
  unfold countSurvivors
  apply List.countP_congr
  intro i hi
  rw [List.mem_range] at hi
  have h : low + 2 * i ≤ N := by omega
  simp [h]

theorem segLoopSerialStripped_eq_loop (N W : Nat) (P : List Nat)
    (hWeven : W % 2 = 0) (hW1 : 1 ≤ W) :
    ∀ fuel low, low % 2 = 1 →
      segLoopSerialStripped W N P fuel low = segLoopSerial W N P fuel low := by
  intro fuel
  induction fuel with
  | zero => intro low _; rfl
  | succ fuel ih =>
      intro low hlow
      by_cases hlN : low ≤ N
      · have hne : ¬(low % 2 = 0) := by omega
        have hnskip : ¬(min (low + W - 1) N < low) := by omega
        simp only [segLoopSerialStripped, segLoopSerial, if_pos hlN, if_neg hne,
          if_neg hnskip]
        rw [countSurvivors_noguard N low (min (low + W - 1) N) _ (by omega)
          (min_le_right _ _)]
        rw [ih (low + W) (by omega)]
      · simp only [segLoopSerialStripped, segLoopSerial, if_neg hlN]

theorem rawLow_odd (W k : Nat) (hWeven : W % 2 = 0) : rawLow W k % 2 = 1 := by
  unfold rawLow
  obtain ⟨t, ht⟩ : ∃ t, W = 2 * t := ⟨W / 2, by omega⟩
  have : k * W = 2 * (k * t) := by rw [ht]; ring
  omega

theorem rawLow_le_of_lt_numSegments (W N k : Nat) (hW1 : 1 ≤ W) (hN3 : 3 ≤ N)
    (hk : k < numSegments W N) : rawLow W k ≤ N := by
  have hk1 : k + 1 ≤ numSegments W N := by omega
  unfold numSegments at hk1
  have := (Nat.le_div_iff_mul_le (by omega : 0 < W)).mp hk1
  have hexp : (k + 1) * W = k * W + W := by ring
  unfold rawLow
  omega

theorem segCountOmpStripped_eq (N W : Nat) (P : List Nat) (k : Nat)
    (hWeven : W % 2 = 0) (hW1 : 1 ≤ W) (hkN : rawLow W k ≤ N) :
    segCountOmpStripped W N P k = segCountOmp W N P k := by
  have hLodd := rawLow_odd W k hWeven
  have hlh : rawLow W k ≤ rawHigh W N k := by
    unfold rawHigh
    omega
  unfold segCountOmpStripped segCountOmp
  dsimp only
  rw [if_neg (by omega : ¬(rawLow W k % 2 = 0)),
    if_neg (by omega : ¬(rawHigh W N k < rawLow W k))]
  rw [countSurvivors_noguard N (rawLow W k) (rawHigh W N k) _ hlh (min_le_right _ _)]

theorem sieve_serial_stripped_eq (N : Nat) :
    sieve_serial_stripped N = sieve_serial N := by
  unfold sieve_serial_stripped sieve_serial sieve_serial_W
  by_cases hN : N < 2
  · rw [if_pos hN, if_pos hN]
  · rw [if_neg hN, if_neg hN]
    rw [segLoopSerialStripped_eq_loop N SEG_SIZE _ (by decide) (by decide) (N + 1) 3
      (by decide)]

theorem sieve_openmp_stripped_eq (N T : Nat) :
    sieve_openmp_stripped N T = sieve_openmp N T := by
  unfold sieve_openmp_stripped sieve_openmp sieve_openmp_W
  by_cases hN2 : N < 2
  · rw [if_pos hN2, if_pos hN2]
  · rw [if_neg hN2, if_neg hN2]
    by_cases hN3 : N < 3
    · rw [if_pos hN3, if_pos hN3]
    · rw [if_neg hN3, if_neg hN3]
      congr 1
      congr 1
      apply List.map_congr_left
      intro k hk
      rw [List.mem_range] at hk
      exact segCountOmpStripped_eq N SEG_SIZE _ k (by decide) (by decide)
        (rawLow_le_of_lt_numSegments SEG_SIZE N k (by decide) (by omega) hk)

/-! ## A kernel-computable primality count (reference side only) -/

/-- `noDivisorUpTo n d = true` iff no `k` with `2 ≤ k ≤ d` divides `n`. -/
def noDivisorUpTo (n : Nat) : Nat → Bool
  | 0 => true
  | d + 1 => (decide (d + 1 < 2) || decide (¬ (d + 1 ∣ n))) && noDivisorUpTo n d

theorem noDivisorUpTo_iff (n : Nat) :
    ∀ d, (noDivisorUpTo n d = true ↔ ∀ k, 2 ≤ k → k ≤ d → ¬ k ∣ n) := by
  intro d
  induction d with
  | zero =>
      simp only [noDivisorUpTo, true_iff]
      intro k hk2 hk0
      omega
  | succ d ih =>
      simp only [noDivisorUpTo, Bool.and_eq_true, Bool.or_eq_true, decide_eq_true_eq, ih]
      constructor
      · rintro ⟨h1, h2⟩ k hk2 hkd
        rcases Nat.lt_or_ge k (d + 1) with h | h
        · exact h2 k hk2 (by omega)
        · have hk : k = d + 1 := by omega
          subst hk
          rcases h1 with h' | h'
          · omega
          · exact h'
      · intro h
        constructor
        · by_cases hd2 : d + 1 < 2
          · left; exact hd2
          · right; exact h (d + 1) (by omega) (le_refl _)
        · exact fun k hk2 hkd => h k hk2 (by omega)

/-- Trial-division primality test (divisors up to `⌊√n⌋`), used only to
evaluate the reference prime-counting function on concrete inputs. -/
def isPrime (n : Nat) : Bool :=
  decide (2 ≤ n) && noDivisorUpTo n (intSqrt n)

theorem isPrime_iff (n : Nat) : isPrime n = true ↔ n.Prime := by
  unfold isPrime
  rw [Bool.and_eq_true, decide_eq_true_eq, noDivisorUpTo_iff, intSqrt_eq_sqrt]
  constructor
  · rintro ⟨h2, h⟩
    rw [prime_iff_noSmallFactor]
    refine ⟨h2, fun p hp hpn hdvd => ?_⟩
    have hps : p ≤ Nat.sqrt n := Nat.le_sqrt.mpr hpn
    exact h p hp.two_le hps hdvd
  · intro hp
    refine ⟨hp.two_le, fun d hd2 hds hdvd => ?_⟩
    have hdn : d < n := by
      have h1 : Nat.sqrt n < n := Nat.sqrt_lt_self hp.one_lt
      omega
    rcases hp.eq_one_or_self_of_dvd d hdvd with h | h <;> omega

/-- Number of primes in `[2, N]`, computed by trial division. -/
def primeCountList (N : Nat) : Nat := (List.range (N + 1)).countP isPrime

theorem primeCountList_eq (N : Nat) : primeCountList N = (primesBetween 2 N).card := by
  unfold primeCountList
  rw [countP_range_card]
  congr 1
  ext n
  simp only [Finset.mem_filter, Finset.mem_range, primesBetween, Finset.mem_Icc,
    isPrime_iff]
  constructor
  · rintro ⟨hlt, hp⟩
    exact ⟨⟨hp.two_le, by omega⟩, hp⟩
  · rintro ⟨⟨h2, hle⟩, hp⟩
    exact ⟨by omega, hp⟩

/-! ## Segment-partition arithmetic (planner) -/

theorem numSegments_mul_ge (W N : Nat) (hW : 1 ≤ W) :
    N - 3 + 1 ≤ numSegments W N * W := by
  unfold numSegments
  have hdm := Nat.div_add_mod (N - 3 + 1 + (W - 1)) W
  have hml : (N - 3 + 1 + (W - 1)) % W < W := Nat.mod_lt _ (by omega)
  rw [Nat.mul_comm]
  omega

theorem numSegments_le (W N k : Nat) (hW : 1 ≤ W) (h : N - 3 + 1 ≤ k * W) :
    numSegments W N ≤ k := by
  unfold numSegments
  have hexp : (k + 1) * W = k * W + W := by ring
  have := (Nat.div_lt_iff_lt_mul (by omega : 0 < W)).mpr
    (by omega : N - 3 + 1 + (W - 1) < (k + 1) * W)
  omega

theorem seg_id_bounds (W m : Nat) (hW : 1 ≤ W) (h3 : 3 ≤ m) :
    rawLow W ((m - 3) / W) ≤ m ∧ m < rawLow W ((m - 3) / W) + W := by
  unfold rawLow
  have hdm := Nat.div_add_mod (m - 3) W
  have hml : (m - 3) % W < W := Nat.mod_lt _ (by omega)
  have h1 : 3 + ((m - 3) / W) * W ≤ m := by
    rw [Nat.mul_comm]
    omega
  have h2 : m < 3 + ((m - 3) / W) * W + W := by
    rw [Nat.mul_comm]
    omega
  exact ⟨h1, h2⟩

/-! ## Claim theorems -/

set_option maxRecDepth 20000

/-- C1: for every `N ≥ 0`, `sieve_serial N` returns exactly the number of
primes in the range `[2, N]`; in particular it matches the reference values
`count 0 = 0`, `count 1 = 0`, `count 2 = 1`, `count 3 = 2`, `count 10 = 4`,
`count 100 = 25`, `count 1000 = 168`.  (The `count (10^6) = 78498` reference
value is the same general equality instantiated at `10^6` together with the
arithmetic fact `π(10^6) = 78498`, which is beyond feasible kernel
evaluation here.) -/
theorem sieve_serial_correct :
    (∀ N : Nat, sieve_serial N = (primesBetween 2 N).card) ∧
    sieve_serial 0 = 0 ∧ sieve_serial 1 = 0 ∧ sieve_serial 2 = 1 ∧
    sieve_serial 3 = 2 ∧ sieve_serial 10 = 4 ∧ sieve_serial 100 = 25 ∧
    sieve_serial 1000 = 168 := by
  have hinst : ∀ v c : Nat, primeCountList v = c → sieve_serial v = c := by
    intro v c h
    rw [sieve_serial_eq, ← primeCountList_eq, h]
  exact ⟨sieve_serial_eq, hinst 0 0 (by decide), hinst 1 0 (by decide),
    hinst 2 1 (by decide), hinst 3 2 (by decide), hinst 10 4 (by decide),
    hinst 100 25 (by decide), hinst 1000 168 (by decide)⟩

/-- C2: for every `N` and every thread count `T ≥ 1`, `sieve_openmp N T`
returns the same total count as `sieve_serial N`, and the result does not
depend on `T` or on the order in which the workers claim segments and fold
their partial counts (modelled as any permutation of the segment-id list). -/
theorem sieve_openmp_refines_serial (N T : Nat) (order : List Nat) (hT : 1 ≤ T)
    (hord : order.Perm (List.range (numSegments SEG_SIZE N))) :
    sieve_openmp N T = sieve_serial N ∧
    sieve_openmp_sched SEG_SIZE N order = sieve_openmp N T := by
  constructor
  · rw [sieve_openmp_eq N T, sieve_serial_eq]
  · rw [sieve_openmp_eq N T]
    unfold sieve_openmp_sched
    by_cases hN2 : N < 2
    · rw [if_pos hN2, primesBetween_empty 2 N (by omega)]
    · rw [if_neg hN2]
      by_cases hN3 : N < 3
      · rw [if_pos hN3]
        have hN2' : N = 2 := by omega
        subst hN2'
        rw [primesBetween_two 2 (le_refl _), primesBetween_empty 3 2 (by omega)]
      · rw [if_neg hN3]
        rw [List.Perm.sum_eq (hord.map (segCountOmp SEG_SIZE N
          (simple_sieve (intSqrt N))))]
        rw [List.range_eq_range']
        rw [ompSum_eq N SEG_SIZE _ (simple_sieve_basePrimes N)
          (simple_sieve_sorted (intSqrt N)) (by decide) (by omega)
          (numSegments SEG_SIZE N) 0 (by omega)]
        have h3 : rawLow SEG_SIZE 0 = 3 := by unfold rawLow; ring
        rw [h3, primesBetween_two N (by omega)]

theorem sieve_openmp_refines_serial_witness :
    sieve_openmp 10 2 = sieve_serial 10 ∧
    sieve_openmp_sched SEG_SIZE 10 [0] = sieve_openmp 10 2 :=
  sieve_openmp_refines_serial 10 2 [0] (by decide) (by decide)

/-- C3: for a well-formed segment `[low, high]` (`low` odd, `3 ≤ low ≤ high ≤ N`)
and any base-prime list that is ascending and contains exactly the primes up
to `⌊√N⌋`, stopping the marking loop at the first prime with `p*p > high`
leaves the buffer identical to processing every base prime, and the
surviving positions are exactly the primes in `[low, high]`. -/
theorem early_termination_equiv (N : Nat) (P : List Nat) (low high : Nat)
    (hmem : ∀ p, p ∈ P ↔ (p.Prime ∧ p ≤ Nat.sqrt N))
    (hsort : P.Pairwise (· < ·))
    (hlow : low % 2 = 1) (h3 : 3 ≤ low) (hle : low ≤ high) (hhN : high ≤ N) :
    (markSegmentSerialFull low high ((high - low) / 2 + 1) P (fun _ => true) =
      markSegmentSerial low high ((high - low) / 2 + 1) P (fun _ => true)) ∧
    (∀ i, i < (high - low) / 2 + 1 →
      (markSegmentSerial low high ((high - low) / 2 + 1) P (fun _ => true) i = true ↔
        (low + 2 * i).Prime)) := by
  constructor
  · exact markSegmentSerialFull_eq low high _ P _ hsort
      (fun p hp => ((hmem p).mp hp).1.two_le)
  · exact fun i hi => survivor_iff_prime N P hmem hsort low high hlow h3 hle hhN i hi

theorem early_termination_equiv_witness :
    markSegmentSerial 3 9 ((9 - 3) / 2 + 1) (simple_sieve (intSqrt 9))
        (fun _ => true) 3 = true ↔ (3 + 2 * 3).Prime :=
  (early_termination_equiv 9 (simple_sieve (intSqrt 9)) 3 9
    (simple_sieve_basePrimes 9) (simple_sieve_sorted (intSqrt 9))
    (by decide) (by decide) (by decide) (by decide)).2 3 (by decide)

/-- C4: for every `limit ≥ 0`, `simple_sieve limit` is the ascending sequence
of exactly the primes `≤ limit` (no omissions, no duplicates), and for
`limit < 2` it is empty. -/
theorem simple_sieve_correct (limit : Nat) :
    (∀ n, n ∈ simple_sieve limit ↔ (n.Prime ∧ n ≤ limit)) ∧
    (simple_sieve limit).Pairwise (· < ·) ∧
    (limit < 2 → simple_sieve limit = []) := by
  refine ⟨simple_sieve_mem limit, simple_sieve_sorted limit, ?_⟩
  intro h2
  cases hss : simple_sieve limit with
  | nil => rfl
  | cons a l =>
      exfalso
      have ha : a ∈ simple_sieve limit := by rw [hss]; simp
      have := (simple_sieve_mem limit a).mp ha
      have := this.1.two_le
      omega

theorem simple_sieve_correct_witness : simple_sieve 1 = [] :=
  (simple_sieve_correct 1).2.2 (by decide)

/-- C5: for `N` up to `10^9`, none of the intermediate quantities of the
marking loops (`p*p` for a base prime `p ≤ ⌊√N⌋`, the first-multiple value
`((low + p - 1)/p)*p`, the adjusted start, the stride `2*p`, the index
`(x - low)/2`, and the represented value `low + 2*i`) exceeds the signed
64-bit range, so computing them modulo `2^64` agrees with exact
arithmetic. -/
theorem intermediate_values_fit_int64 (N p low high i x : Nat)
    (hN : N ≤ 10 ^ 9) (hp : p ≤ Nat.sqrt N) (h3 : 3 ≤ low) (hlh : low ≤ high)
    (hhN : high ≤ N) (hi : i < (high - low) / 2 + 1) (hxl : low ≤ x)
    (hxh : x ≤ high) :
    p * p < 2 ^ 63 ∧
    firstMultiple p low < 2 ^ 63 ∧
    segmentStart p low < 2 ^ 63 ∧
    2 * p < 2 ^ 63 ∧
    (x - low) / 2 < 2 ^ 63 ∧
    low + 2 * i < 2 ^ 63 ∧
    p * p % 2 ^ 64 = p * p ∧
    firstMultiple p low % 2 ^ 64 = firstMultiple p low ∧
    segmentStart p low % 2 ^ 64 = segmentStart p low ∧
    (2 * p) % 2 ^ 64 = 2 * p ∧
    ((x - low) / 2) % 2 ^ 64 = (x - low) / 2 ∧
    (low + 2 * i) % 2 ^ 64 = low + 2 * i := by
  have hN' : N ≤ 1000000000 := by
    norm_num at hN
    exact hN
  have hB : (2 : Nat) ^ 63 = 9223372036854775808 := by norm_num
  have hB2 : (2 : Nat) ^ 64 = 18446744073709551616 := by norm_num
  have hsq : p * p ≤ N := Nat.le_sqrt.mp hp
  have hpb : p ≤ 31622 := by
    have h1 : Nat.sqrt N < 31623 := by
      rw [Nat.sqrt_lt]
      omega
    omega
  have hfm : firstMultiple p low ≤ low + p - 1 := by
    unfold firstMultiple
    exact Nat.div_mul_le_self _ _
  have hmaxb : max (p * p) (firstMultiple p low) ≤ N + p :=
    max_le (by omega) (by omega)
  have hss : segmentStart p low ≤ max (p * p) (firstMultiple p low) + p := by
    unfold segmentStart
    by_cases h : (max (p * p) (firstMultiple p low)) % 2 = 0
    · simp only [if_pos h]
      exact le_refl _
    · simp only [if_neg h]; omega
  rw [hB, hB2]
  refine ⟨by omega, by omega, by omega, by omega, by omega, by omega,
    Nat.mod_eq_of_lt (by omega), Nat.mod_eq_of_lt (by omega),
    Nat.mod_eq_of_lt (by omega), Nat.mod_eq_of_lt (by omega),
    Nat.mod_eq_of_lt (by omega), Nat.mod_eq_of_lt (by omega)⟩

theorem intermediate_values_fit_int64_witness :
    segmentStart 31622 3 < 2 ^ 63 :=
  (intermediate_values_fit_int64 (10 ^ 9) 31622 3 (10 ^ 9) 0 3
    (le_refl _) (Nat.le_sqrt.mpr (by norm_num)) (le_refl _) (by norm_num)
    (le_refl _) (Nat.succ_pos _) (le_refl _) (by norm_num)).2.2.1

/-- C6: for `N ≥ 3` and `W ≥ 1`, the raw segments
`[rawLow W s, rawHigh W N s]` with `rawLow W s = 3 + s*W` are contiguous,
non-overlapping and exhaustive over `[3, N]` (every `m ∈ [3, N]` lies in
exactly one raw segment), and `numSegments W N` is exactly
`⌈(N - 3 + 1)/W⌉` (the least `k` with `N - 3 + 1 ≤ k*W`). -/
theorem raw_segments_partition (N W : Nat) (hN : 3 ≤ N) (hW : 1 ≤ W) :
    (∀ m, 3 ≤ m → m ≤ N →
      ∃! s, s < numSegments W N ∧ rawLow W s ≤ m ∧ m ≤ rawHigh W N s) ∧
    (∀ s, s + 1 < numSegments W N → rawLow W (s + 1) = rawHigh W N s + 1) ∧
    (N - 3 + 1 ≤ numSegments W N * W ∧
      ∀ k, N - 3 + 1 ≤ k * W → numSegments W N ≤ k) := by
  refine ⟨?_, ?_, numSegments_mul_ge W N hW, fun k hk => numSegments_le W N k hW hk⟩
  · intro m h3 hmN
    obtain ⟨hlo, hhi⟩ := seg_id_bounds W m hW h3
    have hslt : (m - 3) / W < numSegments W N := by
      have h1 : ((m - 3) / W) * W ≤ m - 3 := Nat.div_mul_le_self _ _
      have h2 := numSegments_mul_ge W N hW
      have h3' : ((m - 3) / W) * W < numSegments W N * W := by omega
      exact Nat.lt_of_mul_lt_mul_right h3'
    refine ⟨(m - 3) / W, ⟨hslt, hlo, ?_⟩, ?_⟩
    · unfold rawHigh
      exact le_min (by omega) hmN
    · rintro s ⟨hs, hsl, hsh⟩
      have h1 : s * W ≤ m - 3 := by
        unfold rawLow at hsl
        omega
      have h2 : m - 3 < (s + 1) * W := by
        have hm : m ≤ rawLow W s + W - 1 := le_trans hsh (min_le_left _ _)
        unfold rawLow at hm
        have hexp : (s + 1) * W = s * W + W := by ring
        omega
      exact (Nat.div_eq_of_lt_le h1 h2).symm
  · intro s hs
    have hle := rawLow_le_of_lt_numSegments W N (s + 1) hW hN hs
    have hexp : rawLow W (s + 1) = rawLow W s + W := by
      unfold rawLow
      ring
    unfold rawHigh
    rw [hexp] at hle ⊢
    have hmin : min (rawLow W s + W - 1) N = rawLow W s + W - 1 :=
      min_eq_left (by omega)
    omega

theorem raw_segments_partition_witness :
    3 ≤ rawLow 4 0 ∧ rawLow 4 0 ≤ rawHigh 4 10 0 := by
  have h := (raw_segments_partition 10 4 (by decide) (by decide)).1 3 (by decide)
    (by decide)
  obtain ⟨s, ⟨hs, hl, hh⟩, hu⟩ := h
  have hs0 : s = 0 := by
    have := hu 0 (by decide)
    omega
  subst hs0
  exact ⟨by decide, le_trans hl hh⟩

/-- C7: `N < 2` yields count `0` and `N = 2` yields count `1` in both
variants (for every `T ≥ 1`), as defined results of the total functions. -/
theorem small_N_defined (N T : Nat) (hT : 1 ≤ T) :
    (N < 2 → sieve_serial N = 0 ∧ sieve_openmp N T = 0) ∧
    (N = 2 → sieve_serial N = 1 ∧ sieve_openmp N T = 1) := by
  constructor
  · intro hN
    constructor
    · unfold sieve_serial sieve_serial_W
      rw [if_pos hN]
    · unfold sieve_openmp sieve_openmp_W
      rw [if_pos hN]
  · intro hN
    subst hN
    constructor
    · decide
    · unfold sieve_openmp sieve_openmp_W
      rw [if_neg (by decide), if_pos (by decide)]

theorem small_N_defined_witness :
    (sieve_serial 0 = 0 ∧ sieve_openmp 0 1 = 0) ∧
    (sieve_serial 2 = 1 ∧ sieve_openmp 2 1 = 1) :=
  ⟨(small_N_defined 0 1 (by decide)).1 (by decide),
   (small_N_defined 2 1 (by decide)).2 rfl⟩

/-- C8 (counterexample): the count returned by the serial sieve is *not*
independent of the segment width `W`: with `W = 3` (odd), the in-body
odd-adjustment of the mutated loop variable makes consecutive segments skip
the odd value between them, so `sieve_serial_W 3 13 = 5` misses the prime
`13` that the default width finds (`sieve_serial 13 = 6`). -/
theorem width_invariance_counterexample :
    sieve_serial_W 3 13 = 5 ∧ sieve_serial 13 = 6 ∧
      sieve_serial_W 3 13 ≠ sieve_serial 13 := by
  decide

/-- C8 (amended): for a fixed `N` the returned count is independent of the
segment width among the widths the loop structure supports: the serial
variant returns the same count for every even `W ≥ 2` (which covers the
claim's example pair `2^10` versus `2^20`), and the OpenMP variant for every
`W ≥ 1`. -/
theorem width_invariance_amended (N T W : Nat) (hW : 1 ≤ W) :
    (W % 2 = 0 → sieve_serial_W W N = sieve_serial N) ∧
    sieve_openmp_W W N T = sieve_openmp N T := by
  constructor
  · intro hWe
    rw [sieve_serial_W_eq W N hWe hW, sieve_serial_eq]
  · rw [sieve_openmp_W_eq W N T hW, sieve_openmp_eq]

theorem width_invariance_amended_witness :
    sieve_serial_W 1024 100 = sieve_serial 100 ∧
    sieve_openmp_W 1024 100 1 = sieve_openmp 100 1 :=
  ⟨(width_invariance_amended 100 1 1024 (by decide)).1 (by decide),
   (width_invariance_amended 100 1 1024 (by decide)).2⟩

/-- C9: in the marking loop, the computed start satisfies `start ≥ low`, so
for every marked value `x = start + 2*p*k ≤ high` the index `(x - low)/2`
lies in `[0, odd_count)` (`≥ 0` is automatic over `Nat`), hence the
unguarded OpenMP buffer write is in bounds and the serial variant's explicit
range check is redundant: both marking loops produce the same buffer. -/
theorem unguarded_write_in_bounds (p low high k : Nat) (hp : 1 ≤ p)
    (h3 : 3 ≤ low) (hpph : p * p ≤ high) :
    low ≤ segmentStart p low ∧
    (segmentStart p low + 2 * p * k ≤ high →
      (segmentStart p low + 2 * p * k - low) / 2 < (high - low) / 2 + 1) ∧
    (∀ (P : List Nat) (buf : Nat → Bool), (∀ q ∈ P, 1 ≤ q) →
      markSegmentOmp low high P buf =
        markSegmentSerial low high ((high - low) / 2 + 1) P buf) := by
  have hgl := segmentStart_ge_low p low hp
  refine ⟨hgl, ?_, ?_⟩
  · intro hle
    have h1 : segmentStart p low + 2 * p * k - low ≤ high - low := by omega
    have h2 : (segmentStart p low + 2 * p * k - low) / 2 ≤ (high - low) / 2 :=
      Nat.div_le_div_right h1
    omega
  · intro P buf hP
    exact markSegmentOmp_eq_serial low high P buf hP

theorem unguarded_write_in_bounds_witness :
    5 ≤ segmentStart 3 5 ∧
    markSegmentOmp 5 30 [3] (fun _ => true) =
      markSegmentSerial 5 30 ((30 - 5) / 2 + 1) [3] (fun _ => true) :=
  ⟨(unguarded_write_in_bounds 3 5 30 1 (by decide) (by decide) (by decide)).1,
   (unguarded_write_in_bounds 3 5 30 1 (by decide) (by decide) (by decide)).2.2
     [3] (fun _ => true) (by decide)⟩

/-- C10: with first value `3` and the default even width `2^20`, every
generated segment has an odd `low = 3 + s*SEG_SIZE` and satisfies
`low ≤ high ≤ N`; consequently the odd-adjustment increment, the
degenerate-segment skip branch, and the final `num ≤ N` counting guard never
fire: removing all of them (`sieve_serial_stripped`, `sieve_openmp_stripped`)
leaves the returned count unchanged. -/
theorem redundant_guards_noop (N T : Nat) :
    sieve_serial_stripped N = sieve_serial N ∧
    sieve_openmp_stripped N T = sieve_openmp N T ∧
    (∀ s, s < numSegments SEG_SIZE N →
      rawLow SEG_SIZE s % 2 = 1 ∧
      (3 ≤ N → rawLow SEG_SIZE s ≤ rawHigh SEG_SIZE N s ∧
        rawHigh SEG_SIZE N s ≤ N)) := by
  refine ⟨sieve_serial_stripped_eq N, sieve_openmp_stripped_eq N T, ?_⟩
  intro s hs
  refine ⟨rawLow_odd SEG_SIZE s (by decide), fun hN3 => ?_⟩
  have h := rawLow_le_of_lt_numSegments SEG_SIZE N s (by decide) hN3 hs
  have hS : 1 ≤ SEG_SIZE := by decide
  constructor
  · unfold rawHigh
    exact le_min (by omega) h
  · exact min_le_right _ _

theorem redundant_guards_noop_witness :
    sieve_serial_stripped 10 = sieve_serial 10 ∧ rawLow SEG_SIZE 0 % 2 = 1 :=
  ⟨(redundant_guards_noop 10 1).1,
   ((redundant_guards_noop 10 1).2.2 0 (by decide)).1⟩

end SieveVerify
